import Mathlib

/-!
Shallow embedding of the g2p repository (src/conf.py, src/main.py).

The repository is a batching/aggregation layer around an external sequitur
`Translator` object.  The external collaborator is modelled as an oracle:
an `nBestInit` outcome per word (a search state or a `TranslationFailure`),
where the search state carries `logLikTotal` and a stream of successive
`nBestNext` outcomes (a candidate, a `StopIteration`, or a
`TranslationFailure`).  `math.exp` on floats is modelled by an arbitrary
function `expf : ℚ → ℚ` supplied as a parameter; real numbers in the code
are modelled as rationals so that everything stays executable.
-/

namespace G2P

/-- conf.py: `VARIANTS_NUMBER = 4`. -/
def VARIANTS_NUMBER : Nat := 4

/-- conf.py: `VARIANTS_MASS = 0.9`. -/
def VARIANTS_MASS : ℚ := 9/10

/-- conf.py: `ICE_ALPHABET = 'aábdðeéfghiíjklmnoóprstuúvxyýþæö'`. -/
def ICE_ALPHABET : String := "aábdðeéfghiíjklmnoóprstuúvxyýþæö"

/-- main.py `Options`: only the two fields the aggregation loop reads
(`variants_mass`, `variants_number`); `modelFile`/`encoding` only feed the
external model loader and are not modelled. -/
structure Options where
  variants_number : Nat
  variants_mass : ℚ
deriving DecidableEq, Repr

/-- One outcome of `TRANSLATOR.nBestNext(n_best)`: a candidate
`(log_like, result)`, or a `StopIteration`, or a `TranslationFailure`
raised mid-loop. -/
inductive NextOutcome where
  | candidate (log_like : ℚ) (result : List String)
  | stopIteration
  | translationFailure
deriving DecidableEq, Repr

/-- The search state returned by `TRANSLATOR.nBestInit(left)`: its
`logLikTotal` attribute and the stream of successive `nBestNext` outcomes.
An exhausted stream behaves like `StopIteration` (an exhausted generator
keeps raising it). -/
structure NBest where
  logLikTotal : ℚ
  stream : List NextOutcome
deriving DecidableEq, Repr

/-- Outcome of `TRANSLATOR.nBestInit`: a search state, or a
`TranslationFailure` raised by initialization itself. -/
inductive InitOutcome where
  | ok (nb : NBest)
  | translationFailure
deriving DecidableEq, Repr

/-- The external translator collaborator, as the oracle the aggregator
drives: one `nBestInit` outcome per input character tuple. -/
def Translator : Type := List Char → InitOutcome

/-- One entry of `output["results"]`:
`{"posterior": ..., "pronunciation": ...}`. -/
structure Hyp where
  posterior : ℚ
  pronunciation : String
deriving DecidableEq, Repr

/-- One record yielded by `predict`: `{"word": ..., "results": [...]}`. -/
structure WordOutput where
  word : String
  results : List Hyp
deriving DecidableEq, Repr

/-- `" ".join(result)`. -/
def joinSpace (result : List String) : String :=
  String.intercalate " " result

/-- The `while` loop of `predict` (main.py lines 86-99): while
`total_posterior < variants_mass and n_variants < variants_number`,
request the next candidate; on `StopIteration` break; on a candidate
compute `posterior = exp(log_like - n_best.logLikTotal)`, append it,
and update the accumulators.  A `TranslationFailure` raised by
`nBestNext` escapes the inner `try` and is caught by the outer
`except TRANSLATOR.TranslationFailure: pass` (lines 101-102), which ends
the loop keeping the results appended so far. -/
def predictLoop (expf : ℚ → ℚ) (opts : Options) (llt : ℚ) :
    List NextOutcome → ℚ → Nat → List Hyp → List Hyp
  | stream, total, nvar, acc =>
    if total < opts.variants_mass ∧ nvar < opts.variants_number then
      match stream with
      | [] => acc
      | .candidate ll res :: rest =>
          predictLoop expf opts llt rest (total + expf (ll - llt)) (nvar + 1)
            (acc ++ [⟨expf (ll - llt), joinSpace res⟩])
      | .stopIteration :: _ => acc
      | .translationFailure :: _ => acc
    else acc
termination_by structural stream _ _ _ => stream

/-- The body of `predict` for one word (main.py lines 77-103):
`left = tuple(word)`; `nBestInit(left)`; if it raises
`TranslationFailure`, the outer handler leaves `results` empty;
otherwise run the retrieval loop from `total_posterior = 0.0`,
`n_variants = 0`, `results = []`. -/
def predictWord (expf : ℚ → ℚ) (tr : Translator) (opts : Options)
    (word : String) : WordOutput :=
  match tr word.toList with
  | .translationFailure => ⟨word, []⟩
  | .ok nb => ⟨word, predictLoop expf opts nb.logLikTotal nb.stream 0 0 []⟩

/-- main.py `predict(words)`: one `WordOutput` per word, in order. -/
def predict (expf : ℚ → ℚ) (tr : Translator) (opts : Options)
    (words : List String) : List WordOutput :=
  words.map (predictWord expf tr opts)

/-- Model of Python `str.lower()` on the characters this repository
handles: ASCII uppercase and the Latin-1 uppercase letters (which include
every uppercase character of the Icelandic alphabet) map to their
lowercase forms 32 code points higher; everything else is unchanged. -/
def pyLower (c : Char) : Char :=
  if ('A' ≤ c ∧ c ≤ 'Z') ∨ ('À' ≤ c ∧ c ≤ 'Þ' ∧ c ≠ '×') then
    Char.ofNat (c.toNat + 32)
  else c

/-- main.py `normalize_word` (lines 134-146): lowercase the word, then
`re.sub(sub_pattern, '', word)` where `SUB_PATTERN = re.compile(r'[^{}]'
.format(ICE_ALPHABET))` deletes every character not in the alphabet.
Parametrized by the alphabet (the compiled pattern's character class). -/
def normalize_word (alphabet : List Char) (word : String) : String :=
  String.mk ((word.toList.map pyLower).filter (fun c => decide (c ∈ alphabet)))

/-- Python `str.strip()` with no arguments: remove leading and trailing
whitespace. -/
def pyStrip (s : String) : String :=
  String.mk
    (((s.toList.dropWhile Char.isWhitespace).reverse.dropWhile
      Char.isWhitespace).reverse)

/-- Accumulator-style worker for whitespace splitting: `cur` holds the
current word reversed. -/
def splitWsAux : List Char → List Char → List (List Char)
  | [], cur => if cur = [] then [] else [cur.reverse]
  | c :: rest, cur =>
    if c.isWhitespace then
      if cur = [] then splitWsAux rest []
      else cur.reverse :: splitWsAux rest []
    else splitWsAux rest (c :: cur)

/-- Python `str.split()` with no arguments: split on whitespace runs,
discarding empty pieces. -/
def pySplit (s : String) : List String :=
  (splitWsAux s.toList []).map String.mk

/-- The Python exception that can escape `get_phones`:
`pred['results'][0]` on an empty list raises `IndexError`. -/
inductive PyError where
  | indexError
deriving DecidableEq, Repr

instance {ε α : Type} [DecidableEq ε] [DecidableEq α] :
    DecidableEq (Except ε α) := fun x y =>
  match x, y with
  | .ok a, .ok b =>
    if h : a = b then .isTrue (by rw [h]) else .isFalse (by simp [h])
  | .error a, .error b =>
    if h : a = b then .isTrue (by rw [h]) else .isFalse (by simp [h])
  | .ok _, .error _ => .isFalse (by simp)
  | .error _, .ok _ => .isFalse (by simp)

/-- The collection loop of `get_phones` (main.py lines 129-130):
`phones.append(pred['results'][0]['pronunciation'])` for each prediction;
indexing `[0]` on an empty `results` list raises `IndexError`. -/
def collectTop : List WordOutput → Except PyError (List String)
  | [] => .ok []
  | w :: ws =>
    match w.results with
    | [] => .error .indexError
    | h :: _ =>
      match collectTop ws with
      | .error err => .error err
      | .ok rest => .ok (h.pronunciation :: rest)

/-- main.py `get_phones(utt)` (lines 106-131): normalize the words of the
utterance (`utt.strip().split()`), run `predict`, and keep each word's
first pronunciation.  The global `TRANSLATOR` / `TRANSLATOR_OPTIONS`
set-up is passed as explicit parameters. -/
def get_phones (expf : ℚ → ℚ) (tr : Translator) (opts : Options)
    (utt : String) : Except PyError (List String) :=
  collectTop (predict expf tr opts
    ((pySplit (pyStrip utt)).map (normalize_word ICE_ALPHABET.toList)))

/-- The output line format of `g2p_file` (main.py lines 192-193):
`'{}\t~ {} ~\n'.format(res[0].strip(), '\t'.join(res[1][:]))`. -/
def formatLine (line : String) (phones : List String) : String :=
  pyStrip line ++ "\t~ " ++ String.intercalate "\t" phones ++ " ~\n"

/-- The line format as the spec's words state it literally:
`<original line, trimmed>\t~ <pronunciation_1>\t<pronunciation_2>\t...\t~`
— the closing `~` preceded by a tab (newline-terminated, one line per
input line).  Stated for comparison with `formatLine`, which the code
defines. -/
def formatLine_spec (line : String) (phones : List String) : String :=
  pyStrip line ++ "\t~ " ++ String.intercalate "\t" phones ++ "\t~\n"

/-- main.py `g2p_file` (lines 149-193): for each input line, submit
`get_phones(line)`; `future.result()` re-raises any worker exception in
the parent, so the first failing line makes `g2p_file` itself raise.
Otherwise one formatted output line is written per input line, in input
order.  (`get_phones` never returns `None`, so the
`if future[1].result() is not None` filter keeps every entry.) -/
def g2p_file (expf : ℚ → ℚ) (tr : Translator) (opts : Options) :
    List String → Except PyError (List String)
  | [] => .ok []
  | line :: rest =>
    match get_phones expf tr opts line with
    | .error err => .error err
    | .ok phones =>
      match g2p_file expf tr opts rest with
      | .error err => .error err
      | .ok outs => .ok (formatLine line phones :: outs)

/-! ### Concrete fixtures (instances of the external collaborator used to
exercise the embedding on closed inputs) -/

/-- A concrete stand-in for `math.exp`: `1` at `0` (as `exp 0 = 1`),
`1/10` elsewhere. -/
def expfW : ℚ → ℚ := fun q => if q = 0 then 1 else 1/10

/-- The default options: `variants_number = 4`, `variants_mass = 0.9`. -/
def optsW : Options := ⟨VARIANTS_NUMBER, VARIANTS_MASS⟩

/-- A translator whose search yields a single candidate with
`log_like = logLikTotal = -1`. -/
def trW : Translator := fun _ =>
  .ok ⟨-1, [.candidate (-1) ["k", "a", "b"]]⟩

/-- A translator whose `nBestInit` raises `TranslationFailure` for every
input. -/
def trFail : Translator := fun _ => .translationFailure

/-- A translator whose search yields two low-mass candidates and then
exhausts (`StopIteration`). -/
def trExh : Translator := fun _ =>
  .ok ⟨0, [.candidate (-1) ["a"], .candidate (-2) ["b"], .stopIteration]⟩

/-- A translator whose search yields one candidate and then raises
`TranslationFailure` from `nBestNext`. -/
def trMid : Translator := fun _ =>
  .ok ⟨0, [.candidate (-1) ["a"], .translationFailure]⟩

/-! ### Helper definitions used by the theorem statements -/

/-- Sum of the `posterior` fields of a hypothesis list (the value
`total_posterior` tracks in the loop). -/
def sumPosteriors (l : List Hyp) : ℚ :=
  (l.map Hyp.posterior).sum

/-- The candidate `(log_like, result)` as the `nBestNext` outcome. -/
def toNext (c : ℚ × List String) : NextOutcome :=
  .candidate c.1 c.2

/-- The hypothesis the loop builds from a candidate `(log_like, result)`:
posterior `expf (log_like - logLikTotal)`, pronunciation
`" ".join(result)`. -/
def toHyp (expf : ℚ → ℚ) (llt : ℚ) (c : ℚ × List String) : Hyp :=
  ⟨expf (c.1 - llt), joinSpace c.2⟩

@[simp] lemma sumPosteriors_nil : sumPosteriors [] = 0 := rfl

@[simp] lemma sumPosteriors_cons (h : Hyp) (t : List Hyp) :
    sumPosteriors (h :: t) = h.posterior + sumPosteriors t := by
  simp [sumPosteriors]

@[simp] lemma sumPosteriors_append (l₁ l₂ : List Hyp) :
    sumPosteriors (l₁ ++ l₂) = sumPosteriors l₁ + sumPosteriors l₂ := by
  simp [sumPosteriors]

/-! ### Case lemmas for the retrieval loop -/

section LoopLemmas

variable (e : ℚ → ℚ) (o : Options) (llt total : ℚ) (nvar : Nat)
  (acc : List Hyp)

lemma predictLoop_nil :
    predictLoop e o llt [] total nvar acc = acc := by
  simp only [predictLoop.eq_def]
  by_cases h : (total < o.variants_mass ∧ nvar < o.variants_number)
  · rw [if_pos h]
  · rw [if_neg h]

lemma predictLoop_stop (rest : List NextOutcome) :
    predictLoop e o llt (.stopIteration :: rest) total nvar acc = acc := by
  simp only [predictLoop.eq_def]
  by_cases h : (total < o.variants_mass ∧ nvar < o.variants_number)
  · rw [if_pos h]
  · rw [if_neg h]

lemma predictLoop_fail (rest : List NextOutcome) :
    predictLoop e o llt (.translationFailure :: rest) total nvar acc
      = acc := by
  simp only [predictLoop.eq_def]
  by_cases h : (total < o.variants_mass ∧ nvar < o.variants_number)
  · rw [if_pos h]
  · rw [if_neg h]

lemma predictLoop_not_cond (stream : List NextOutcome)
    (h : ¬(total < o.variants_mass ∧ nvar < o.variants_number)) :
    predictLoop e o llt stream total nvar acc = acc := by
  cases stream with
  | nil => exact predictLoop_nil e o llt total nvar acc
  | cons x rest =>
    cases x with
    | candidate ll res =>
      have step : predictLoop e o llt (.candidate ll res :: rest) total
            nvar acc
          = if total < o.variants_mass ∧ nvar < o.variants_number then
              predictLoop e o llt rest (total + e (ll - llt)) (nvar + 1)
                (acc ++ [⟨e (ll - llt), joinSpace res⟩])
            else acc := rfl
      rw [step, if_neg h]
    | stopIteration => exact predictLoop_stop e o llt total nvar acc rest
    | translationFailure => exact predictLoop_fail e o llt total nvar acc rest

lemma predictLoop_cand (ll : ℚ) (res : List String)
    (rest : List NextOutcome)
    (h : total < o.variants_mass ∧ nvar < o.variants_number) :
    predictLoop e o llt (.candidate ll res :: rest) total nvar acc
      = predictLoop e o llt rest (total + e (ll - llt)) (nvar + 1)
          (acc ++ [⟨e (ll - llt), joinSpace res⟩]) := by
  have step : predictLoop e o llt (.candidate ll res :: rest) total nvar acc
      = if total < o.variants_mass ∧ nvar < o.variants_number then
          predictLoop e o llt rest (total + e (ll - llt)) (nvar + 1)
            (acc ++ [⟨e (ll - llt), joinSpace res⟩])
        else acc := rfl
  rw [step, if_pos h]

end LoopLemmas

/-! ### Loop invariants -/

section Invariants

variable (e : ℚ → ℚ) (o : Options) (llt : ℚ)

/-- The loop only appends: its result extends the accumulator. -/
lemma predictLoop_prefix (stream : List NextOutcome) :
    ∀ (total : ℚ) (nvar : Nat) (acc : List Hyp),
      ∃ t, predictLoop e o llt stream total nvar acc = acc ++ t := by
  induction stream with
  | nil =>
    intro total nvar acc
    exact ⟨[], by rw [predictLoop_nil, List.append_nil]⟩
  | cons x rest ih =>
    intro total nvar acc
    by_cases h : (total < o.variants_mass ∧ nvar < o.variants_number)
    · cases x with
      | candidate ll res =>
        obtain ⟨t, ht⟩ := ih (total + e (ll - llt)) (nvar + 1)
          (acc ++ [⟨e (ll - llt), joinSpace res⟩])
        exact ⟨⟨e (ll - llt), joinSpace res⟩ :: t, by
          rw [predictLoop_cand e o llt total nvar acc ll res rest h, ht]
          simp⟩
      | stopIteration =>
        exact ⟨[], by rw [predictLoop_stop, List.append_nil]⟩
      | translationFailure =>
        exact ⟨[], by rw [predictLoop_fail, List.append_nil]⟩
    · exact ⟨[], by rw [predictLoop_not_cond e o llt total nvar acc _ h,
        List.append_nil]⟩

/-- Each non-breaking iteration increments `n_variants`, so at most
`variants_number - nvar` hypotheses are appended. -/
lemma predictLoop_length (stream : List NextOutcome) :
    ∀ (total : ℚ) (nvar : Nat) (acc : List Hyp),
      (predictLoop e o llt stream total nvar acc).length
        ≤ acc.length + (o.variants_number - nvar) := by
  induction stream with
  | nil =>
    intro total nvar acc
    rw [predictLoop_nil]
    omega
  | cons x rest ih =>
    intro total nvar acc
    by_cases h : (total < o.variants_mass ∧ nvar < o.variants_number)
    · cases x with
      | candidate ll res =>
        rw [predictLoop_cand e o llt total nvar acc ll res rest h]
        have := ih (total + e (ll - llt)) (nvar + 1)
          (acc ++ [⟨e (ll - llt), joinSpace res⟩])
        simp only [List.length_append, List.length_singleton] at this
        omega
      | stopIteration =>
        rw [predictLoop_stop]
        omega
      | translationFailure =>
        rw [predictLoop_fail]
        omega
    · rw [predictLoop_not_cond e o llt total nvar acc _ h]
      omega

/-- The pre-addition mass check: whenever the result is nonempty, the sum
of the posteriors of all hypotheses but the last is below the mass bound,
because that sum was the value of `total_posterior` the loop condition
approved just before the last append. -/
lemma predictLoop_mass (stream : List NextOutcome) :
    ∀ (total : ℚ) (nvar : Nat) (acc : List Hyp),
      total = sumPosteriors acc →
      (acc ≠ [] → sumPosteriors acc.dropLast < o.variants_mass) →
      (predictLoop e o llt stream total nvar acc ≠ [] →
        sumPosteriors (predictLoop e o llt stream total nvar acc).dropLast
          < o.variants_mass) := by
  induction stream with
  | nil =>
    intro total nvar acc htot hacc
    rw [predictLoop_nil]
    exact hacc
  | cons x rest ih =>
    intro total nvar acc htot hacc
    by_cases h : (total < o.variants_mass ∧ nvar < o.variants_number)
    · cases x with
      | candidate ll res =>
        rw [predictLoop_cand e o llt total nvar acc ll res rest h]
        refine ih (total + e (ll - llt)) (nvar + 1)
          (acc ++ [⟨e (ll - llt), joinSpace res⟩]) ?_ ?_
        · rw [htot]
          simp
        · intro _
          rw [List.dropLast_concat, ← htot]
          exact h.1
      | stopIteration =>
        rw [predictLoop_stop]
        exact hacc
      | translationFailure =>
        rw [predictLoop_fail]
        exact hacc
    · rw [predictLoop_not_cond e o llt total nvar acc _ h]
      exact hacc

/-- Every hypothesis in the loop's result was in the accumulator already
or was built from a candidate of the stream by the posterior formula. -/
lemma predictLoop_mem (stream : List NextOutcome) :
    ∀ (total : ℚ) (nvar : Nat) (acc : List Hyp) (hyp : Hyp),
      hyp ∈ predictLoop e o llt stream total nvar acc →
      hyp ∈ acc ∨ ∃ ll res, NextOutcome.candidate ll res ∈ stream ∧
        hyp = ⟨e (ll - llt), joinSpace res⟩ := by
  induction stream with
  | nil =>
    intro total nvar acc hyp hmem
    rw [predictLoop_nil] at hmem
    exact Or.inl hmem
  | cons x rest ih =>
    intro total nvar acc hyp hmem
    by_cases h : (total < o.variants_mass ∧ nvar < o.variants_number)
    · cases x with
      | candidate ll res =>
        rw [predictLoop_cand e o llt total nvar acc ll res rest h] at hmem
        rcases ih (total + e (ll - llt)) (nvar + 1)
            (acc ++ [⟨e (ll - llt), joinSpace res⟩]) hyp hmem with hin | hex
        · rcases List.mem_append.mp hin with hl | hr
          · exact Or.inl hl
          · refine Or.inr ⟨ll, res, List.mem_cons_self _ _, ?_⟩
            simpa using hr
        · obtain ⟨ll', res', hmem', heq⟩ := hex
          exact Or.inr ⟨ll', res', List.mem_cons_of_mem _ hmem', heq⟩
      | stopIteration =>
        rw [predictLoop_stop] at hmem
        exact Or.inl hmem
      | translationFailure =>
        rw [predictLoop_fail] at hmem
        exact Or.inl hmem
    · rw [predictLoop_not_cond e o llt total nvar acc _ h] at hmem
      exact Or.inl hmem

/-- Running the loop through a block of candidates whose prefix sums all
stay below the mass bound and whose count keeps the variant count within
bound: all of them are appended and the loop continues on the tail. -/
lemma predictLoop_run (cands : List (ℚ × List String)) :
    ∀ (tail : List NextOutcome) (total : ℚ) (nvar : Nat) (acc : List Hyp),
      (∀ k, k ≤ cands.length →
        total + sumPosteriors ((cands.take k).map (toHyp e llt))
          < o.variants_mass) →
      nvar + cands.length ≤ o.variants_number →
      predictLoop e o llt (cands.map toNext ++ tail) total nvar acc
        = predictLoop e o llt tail
            (total + sumPosteriors (cands.map (toHyp e llt)))
            (nvar + cands.length) (acc ++ cands.map (toHyp e llt)) := by
  induction cands with
  | nil =>
    intro tail total nvar acc _ _
    simp
  | cons c cs ih =>
    intro tail total nvar acc hmass hnum
    have hc : total < o.variants_mass := by
      have := hmass 0 (by omega)
      simpa using this
    have hn : nvar < o.variants_number := by
      simp only [List.length_cons] at hnum
      omega
    have hstep : toNext c = NextOutcome.candidate c.1 c.2 := rfl
    simp only [List.map_cons, List.cons_append, hstep]
    rw [predictLoop_cand e o llt total nvar acc c.1 c.2 _ ⟨hc, hn⟩]
    have hacc : acc ++ [⟨e (c.1 - llt), joinSpace c.2⟩]
        = acc ++ [toHyp e llt c] := rfl
    rw [hacc]
    rw [ih tail (total + e (c.1 - llt)) (nvar + 1) (acc ++ [toHyp e llt c])
      ?_ ?_]
    · have hpost : (toHyp e llt c).posterior = e (c.1 - llt) := rfl
      congr 1
      · rw [sumPosteriors_cons, hpost]
        ring
      · simp only [List.length_cons]
        omega
      · simp
    · intro k hk
      have := hmass (k + 1) (by simpa using Nat.succ_le_succ hk)
      simp only [List.take_succ_cons, List.map_cons, sumPosteriors_cons]
        at this
      have hpost : (toHyp e llt c).posterior = e (c.1 - llt) := rfl
      rw [hpost] at this
      linarith
    · simp only [List.length_cons] at hnum
      omega

end Invariants

/-! ### Batching-layer lemmas -/

lemma predictWord_ok (e : ℚ → ℚ) (tr : Translator) (o : Options)
    (word : String) (nb : NBest) (h : tr word.toList = .ok nb) :
    predictWord e tr o word
      = ⟨word, predictLoop e o nb.logLikTotal nb.stream 0 0 []⟩ := by
  unfold predictWord
  rw [h]

lemma predictWord_failure (e : ℚ → ℚ) (tr : Translator) (o : Options)
    (word : String) (h : tr word.toList = .translationFailure) :
    predictWord e tr o word = ⟨word, []⟩ := by
  unfold predictWord
  rw [h]

/-- When `collectTop` succeeds, it returns one pronunciation per word,
namely the first (top-ranked) hypothesis of each word's results. -/
lemma collectTop_ok : ∀ (ws : List WordOutput) (ps : List String),
    collectTop ws = .ok ps →
    ps.length = ws.length ∧
    ∀ q ∈ ws.zip ps, ∃ hyp tl, q.1.results = hyp :: tl
      ∧ q.2 = hyp.pronunciation := by
  intro ws
  induction ws with
  | nil =>
    intro ps h
    simp only [collectTop] at h
    cases h
    simp
  | cons w ws ih =>
    intro ps h
    simp only [collectTop] at h
    cases hres : w.results with
    | nil =>
      rw [hres] at h
      cases h
    | cons hyp tl =>
      rw [hres] at h
      cases hrec : collectTop ws with
      | error err =>
        rw [hrec] at h
        cases h
      | ok rest =>
        rw [hrec] at h
        cases h
        obtain ⟨hlen, hmem⟩ := ih rest hrec
        constructor
        · simp [hlen]
        · intro q hq
          rcases List.mem_cons.mp (by simpa using hq) with hq1 | hq2
          · exact ⟨hyp, tl, by rw [hq1]; exact ⟨hres, rfl⟩⟩
          · exact hmem q hq2

/-- When `g2p_file` succeeds, it writes exactly one line per input line:
the trimmed line, `"\t~ "`, the tab-joined pronunciations from
`get_phones`, and `" ~\n"`. -/
lemma g2p_file_ok (e : ℚ → ℚ) (tr : Translator) (o : Options) :
    ∀ (lines outs : List String), g2p_file e tr o lines = .ok outs →
    outs.length = lines.length ∧
    ∀ p ∈ lines.zip outs, ∃ phones,
      get_phones e tr o p.1 = .ok phones ∧
      p.2 = pyStrip p.1 ++ "\t~ " ++ String.intercalate "\t" phones
        ++ " ~\n" := by
  intro lines
  induction lines with
  | nil =>
    intro outs h
    simp only [g2p_file] at h
    cases h
    simp
  | cons line rest ih =>
    intro outs h
    simp only [g2p_file] at h
    cases hgp : get_phones e tr o line with
    | error err =>
      rw [hgp] at h
      cases h
    | ok phones =>
      rw [hgp] at h
      cases hrec : g2p_file e tr o rest with
      | error err =>
        rw [hrec] at h
        cases h
      | ok outs' =>
        rw [hrec] at h
        cases h
        obtain ⟨hlen, hmem⟩ := ih outs' hrec
        constructor
        · simp [hlen]
        · intro p hp
          rcases List.mem_cons.mp (by simpa using hp) with hp1 | hp2
          · refine ⟨phones, by rw [hp1]; exact ⟨hgp, rfl⟩⟩
          · exact hmem p hp2

/-! ### Evaluations of the fixtures -/

lemma predictWord_trW : predictWord expfW trW optsW "hús"
    = ⟨"hús", [⟨1, "k a b"⟩]⟩ := by
  rw [predictWord_ok expfW trW optsW "hús"
    ⟨-1, [.candidate (-1) ["k", "a", "b"]]⟩ rfl]
  rw [predictLoop_cand expfW optsW (-1) 0 0 [] (-1) ["k", "a", "b"] []
    ⟨by norm_num [optsW, VARIANTS_MASS], by norm_num [optsW, VARIANTS_NUMBER]⟩]
  rw [predictLoop_nil]
  norm_num [expfW, joinSpace]
  rfl

lemma get_phones_trW : get_phones expfW trW optsW "hús\n"
    = .ok ["k a b"] := by
  have hw : (pySplit (pyStrip "hús\n")).map
      (normalize_word ICE_ALPHABET.toList) = ["hús"] := by decide
  unfold get_phones
  rw [hw]
  simp only [predict, List.map]
  rw [predictWord_trW]
  rfl

lemma g2p_file_trW : g2p_file expfW trW optsW ["hús\n"]
    = .ok ["hús\t~ k a b ~\n"] := by
  simp only [g2p_file, get_phones_trW]
  rfl

/-! ### Claims -/

/-- C1: the claim says that when a word's translation fails (its Result
has an empty hypothesis list), `get_phones` and `g2p_file` complete,
representing the failed word as an empty/missing result.  The code does
the opposite: `predict` does return the Result with empty hypotheses, but
`get_phones` indexes `pred['results'][0]` without a guard, so an
`IndexError` is raised and — re-raised by `future.result()` — aborts
`g2p_file` as well.  This theorem evaluates the code at such a failing
input. -/
theorem spec_C1_get_phones_raises_on_failed_word :
    (predictWord expfW trFail optsW "hús").results = []
    ∧ get_phones expfW trFail optsW "hús" = .error .indexError
    ∧ g2p_file expfW trFail optsW ["hús\n"] = .error .indexError :=
  ⟨rfl, rfl, rfl⟩

/-- C2: whenever the aggregation loop returns a nonempty hypothesis list,
the cumulative sum of the posteriors of all hypotheses except the last
appended one is strictly below `variants_mass`, because the loop condition
checks `total_posterior < variants_mass` before requesting and appending
the next candidate. -/
theorem spec_C2_mass_checked_before_addition (e : ℚ → ℚ) (tr : Translator)
    (o : Options) (word : String)
    (h : (predictWord e tr o word).results ≠ []) :
    sumPosteriors ((predictWord e tr o word).results.dropLast)
      < o.variants_mass := by
  cases htr : tr word.toList with
  | ok nb =>
    replace h : predictLoop e o nb.logLikTotal nb.stream 0 0 [] ≠ [] := by
      rw [predictWord_ok e tr o word nb htr] at h
      exact h
    have hgoal := predictLoop_mass e o nb.logLikTotal nb.stream 0 0 [] rfl
      (fun hc => absurd rfl hc) h
    rw [predictWord_ok e tr o word nb htr]
    exact hgoal
  | translationFailure =>
    rw [predictWord_failure e tr o word htr] at h
    simp at h

/-- C2 witness: with the single-candidate fixture the hypothesis list is
nonempty and the sum of all posteriors but the last is `0 < 9/10`. -/
theorem spec_C2_witness :
    sumPosteriors ((predictWord expfW trW optsW "hús").results.dropLast)
      < optsW.variants_mass :=
  spec_C2_mass_checked_before_addition expfW trW optsW "hús"
    (by rw [predictWord_trW]; simp)

/-- C3: the hypothesis list returned by the aggregator never exceeds
`variants_number` entries (for failed searches it is empty, hence also
within the bound). -/
theorem spec_C3_variant_limit (e : ℚ → ℚ) (tr : Translator) (o : Options)
    (word : String) :
    (predictWord e tr o word).results.length ≤ o.variants_number := by
  cases htr : tr word.toList with
  | ok nb =>
    rw [predictWord_ok e tr o word nb htr]
    have := predictLoop_length e o nb.logLikTotal nb.stream 0 0 []
    simp only [List.length_nil] at this
    calc (predictLoop e o nb.logLikTotal nb.stream 0 0 []).length
        ≤ 0 + (o.variants_number - 0) := this
      _ ≤ o.variants_number := by omega
  | translationFailure =>
    rw [predictWord_failure e tr o word htr]
    simp

/-- C4: every appended hypothesis has posterior
`exp(candidate.log_likelihood - search_state.logLikTotal)` (and
pronunciation the space-joined candidate sequence); and when the search
state's best log-likelihood equals the first candidate's log-likelihood
(and `exp 0 = 1`, with positive bounds so the loop runs at all), the
first returned hypothesis has posterior exactly `1`. -/
theorem spec_C4_posterior_formula (e : ℚ → ℚ) (tr : Translator)
    (o : Options) (word : String) (nb : NBest)
    (hinit : tr word.toList = .ok nb) :
    (∀ hyp ∈ (predictWord e tr o word).results, ∃ ll res,
        NextOutcome.candidate ll res ∈ nb.stream ∧
        hyp.posterior = e (ll - nb.logLikTotal) ∧
        hyp.pronunciation = joinSpace res)
    ∧ (∀ ll res rest,
        nb.stream = NextOutcome.candidate ll res :: rest →
        nb.logLikTotal = ll → e 0 = 1 →
        0 < o.variants_mass → 0 < o.variants_number →
        ∃ tl, (predictWord e tr o word).results
          = ⟨1, joinSpace res⟩ :: tl) := by
  constructor
  · intro hyp hmem
    rw [predictWord_ok e tr o word nb hinit] at hmem
    rcases predictLoop_mem e o nb.logLikTotal nb.stream 0 0 [] hyp hmem with
      hin | ⟨ll, res, hm, heq⟩
    · simp at hin
    · exact ⟨ll, res, hm, by rw [heq], by rw [heq]⟩
  · intro ll res rest hstream hll hexp hm hn
    rw [predictWord_ok e tr o word nb hinit, hstream]
    show ∃ tl, predictLoop e o nb.logLikTotal
      (NextOutcome.candidate ll res :: rest) 0 0 []
      = ⟨1, joinSpace res⟩ :: tl
    rw [predictLoop_cand e o nb.logLikTotal 0 0 [] ll res rest ⟨hm, hn⟩]
    have hpe : e (ll - nb.logLikTotal) = 1 := by
      rw [hll, sub_self, hexp]
    obtain ⟨t, ht⟩ := predictLoop_prefix e o nb.logLikTotal rest
      (0 + e (ll - nb.logLikTotal)) 1
      ([] ++ [⟨e (ll - nb.logLikTotal), joinSpace res⟩])
    rw [ht, hpe]
    exact ⟨t, by simp⟩

/-- C4 witness: for the single-candidate fixture (whose `logLikTotal`
equals the first candidate's log-likelihood) the first hypothesis has
posterior exactly `1`. -/
theorem spec_C4_witness :
    ∃ tl, (predictWord expfW trW optsW "hús").results
      = (⟨1, joinSpace ["k", "a", "b"]⟩ : Hyp) :: tl :=
  (spec_C4_posterior_formula expfW trW optsW "hús"
      ⟨-1, [.candidate (-1) ["k", "a", "b"]]⟩ rfl).2
    (-1) ["k", "a", "b"] [] rfl rfl (by norm_num [expfW])
    (by norm_num [optsW, VARIANTS_MASS])
    (by norm_num [optsW, VARIANTS_NUMBER])

/-- C5: when `nBestInit` itself signals a translation failure, the
aggregator returns a Result for that word with an empty hypothesis list;
the failure is recovered locally (the function returns normally, no
error value exists in its codomain). -/
theorem spec_C5_init_failure_yields_empty (e : ℚ → ℚ) (tr : Translator)
    (o : Options) (word : String)
    (h : tr word.toList = .translationFailure) :
    (predictWord e tr o word).results = []
    ∧ (predictWord e tr o word).word = word := by
  rw [predictWord_failure e tr o word h]
  exact ⟨rfl, rfl⟩

/-- C5 witness: the always-failing translator produces the empty-result
record. -/
theorem spec_C5_witness :
    (predictWord expfW trFail optsW "hús").results = []
    ∧ (predictWord expfW trFail optsW "hús").word = "hús" :=
  spec_C5_init_failure_yields_empty expfW trFail optsW "hús" rfl

/-- C6: if the search exhausts (a `StopIteration`) after `cands`
candidates, while every prefix mass stays below `variants_mass` and the
count stays below `variants_number`, the loop stops silently and the
Result holds exactly the hypotheses accumulated so far — possibly fewer
than `variants_number`; no error is produced. -/
theorem spec_C6_exhaustion_keeps_partial (e : ℚ → ℚ) (tr : Translator)
    (o : Options) (word : String) (nb : NBest)
    (cands : List (ℚ × List String)) (rest : List NextOutcome)
    (hinit : tr word.toList = .ok nb)
    (hstream : nb.stream
      = cands.map toNext ++ NextOutcome.stopIteration :: rest)
    (hmass : ∀ k, k ≤ cands.length →
      sumPosteriors ((cands.take k).map (toHyp e nb.logLikTotal))
        < o.variants_mass)
    (hnum : cands.length < o.variants_number) :
    (predictWord e tr o word).results
      = cands.map (toHyp e nb.logLikTotal) := by
  rw [predictWord_ok e tr o word nb hinit, hstream]
  show predictLoop e o nb.logLikTotal
    (cands.map toNext ++ NextOutcome.stopIteration :: rest) 0 0 [] = _
  rw [predictLoop_run e o nb.logLikTotal cands _ 0 0 []
    (fun k hk => by simpa using hmass k hk) (by omega)]
  rw [predictLoop_stop]
  simp

/-- C6 witness: two candidates of posterior `1/10` each, then exhaustion:
both are kept although `variants_number = 4` and `variants_mass = 9/10`
were never reached. -/
theorem spec_C6_witness :
    (predictWord expfW trExh optsW "hús").results
      = [((-1 : ℚ), ["a"]), ((-2 : ℚ), ["b"])].map (toHyp expfW 0) :=
  spec_C6_exhaustion_keeps_partial expfW trExh optsW "hús"
    ⟨0, [.candidate (-1) ["a"], .candidate (-2) ["b"], .stopIteration]⟩
    [((-1 : ℚ), ["a"]), ((-2 : ℚ), ["b"])] [] rfl rfl
    (by
      intro k hk
      have hk' : k ≤ 2 := by simpa using hk
      interval_cases k <;>
        norm_num [sumPosteriors, toHyp, expfW, optsW, VARIANTS_MASS])
    (by norm_num [optsW, VARIANTS_NUMBER])

/-- C7: the retrieval loop makes at most `variants_number - n_variants`
further `nBestNext` requests — truncating the outcome stream there does
not change the result.  In particular, from the initial state at most
`variants_number` iterations run (each non-breaking iteration increments
the count), so the loop terminates for any reliable stream; as a total
function over the stream, the embedding terminates by construction. -/
theorem spec_C7_at_most_variants_number_iterations (e : ℚ → ℚ)
    (o : Options) (llt : ℚ) (stream : List NextOutcome) (total : ℚ)
    (nvar : Nat) (acc : List Hyp) :
    predictLoop e o llt (stream.take (o.variants_number - nvar)) total
        nvar acc
      = predictLoop e o llt stream total nvar acc := by
  induction stream generalizing total nvar acc with
  | nil => rw [List.take_nil]
  | cons x rest ih =>
    by_cases hn : nvar < o.variants_number
    · obtain ⟨m, hm⟩ : ∃ m, o.variants_number - nvar = m + 1 :=
        ⟨o.variants_number - nvar - 1, by omega⟩
      have hm' : o.variants_number - (nvar + 1) = m := by omega
      rw [hm, List.take_succ_cons]
      by_cases hc : total < o.variants_mass
      · cases x with
        | candidate ll res =>
          rw [predictLoop_cand e o llt total nvar acc ll res _ ⟨hc, hn⟩,
              predictLoop_cand e o llt total nvar acc ll res _ ⟨hc, hn⟩]
          rw [← hm']
          exact ih _ _ _
        | stopIteration => rw [predictLoop_stop, predictLoop_stop]
        | translationFailure => rw [predictLoop_fail, predictLoop_fail]
      · rw [predictLoop_not_cond e o llt total nvar acc _ (by tauto),
            predictLoop_not_cond e o llt total nvar acc _ (by tauto)]
    · have h0 : o.variants_number - nvar = 0 := by omega
      rw [h0, List.take_zero, predictLoop_nil,
          predictLoop_not_cond e o llt total nvar acc _ (by tauto)]

/-- C8: `normalize_word` lowercases first and then removes every
character not in the configured alphabet by exact membership, possibly
yielding the empty string: the two examples of the spec, and the general
characterization (each character is lowercased first; it survives exactly
when the lowered character is in the alphabet). -/
theorem spec_C8_normalize_lowercase_then_filter :
    normalize_word ICE_ALPHABET.toList "Hús!" = "hús"
    ∧ normalize_word ['h', 'ú', 's'] "X7" = ""
    ∧ ∀ (alphabet : List Char) (word : String),
        (normalize_word alphabet word).toList
          = word.toList.filterMap (fun c =>
              if pyLower c ∈ alphabet then some (pyLower c) else none) := by
  refine ⟨by decide, by decide, ?_⟩
  intro alphabet word
  show (word.toList.map pyLower).filter (fun c => decide (c ∈ alphabet))
    = _
  generalize word.toList = l
  induction l with
  | nil => rfl
  | cons c l ih =>
    simp only [List.map_cons, List.filter_cons, List.filterMap_cons]
    by_cases hc : pyLower c ∈ alphabet
    · simp [hc, ih]
    · simp [hc, ih]

/-- C9 counterexample: on the line `"hús\n"` the code writes
`"hús\t~ k a b ~\n"` — the closing `~` marker is preceded by a space —
while the spec's literal format string
`<line>\t~ <p_1>\t...\t~` puts a tab before the closing marker. -/
theorem spec_C9_counterexample :
    get_phones expfW trW optsW "hús\n" = .ok ["k a b"]
    ∧ g2p_file expfW trW optsW ["hús\n"] = .ok ["hús\t~ k a b ~\n"]
    ∧ "hús\t~ k a b ~\n" ≠ formatLine_spec "hús\n" ["k a b"] :=
  ⟨get_phones_trW, g2p_file_trW, by decide⟩

/-- C9 as amended: for every input line of a successful batch, `g2p_file`
writes exactly one output line — the trimmed input line, a tab, and the
phoneme block `~ <p_1>\t...\t<p_n> ~` holding only each word's top-ranked
(first) pronunciation, the closing `~` preceded by a space rather than a
tab, newline-terminated. -/
theorem spec_C9_one_line_top_ranked_format (e : ℚ → ℚ) (tr : Translator)
    (o : Options) (lines outs : List String)
    (h : g2p_file e tr o lines = .ok outs) :
    outs.length = lines.length ∧
    ∀ p ∈ lines.zip outs, ∃ phones,
      collectTop (predict e tr o ((pySplit (pyStrip p.1)).map
        (normalize_word ICE_ALPHABET.toList))) = .ok phones ∧
      phones.length = (predict e tr o ((pySplit (pyStrip p.1)).map
        (normalize_word ICE_ALPHABET.toList))).length ∧
      (∀ q ∈ (predict e tr o ((pySplit (pyStrip p.1)).map
          (normalize_word ICE_ALPHABET.toList))).zip phones,
        ∃ hyp tl, q.1.results = hyp :: tl
          ∧ q.2 = hyp.pronunciation) ∧
      p.2 = pyStrip p.1 ++ "\t~ " ++ String.intercalate "\t" phones
        ++ " ~\n" := by
  obtain ⟨hlen, hmem⟩ := g2p_file_ok e tr o lines outs h
  refine ⟨hlen, ?_⟩
  intro p hp
  obtain ⟨phones, hgp, hout⟩ := hmem p hp
  have hct : collectTop (predict e tr o ((pySplit (pyStrip p.1)).map
      (normalize_word ICE_ALPHABET.toList))) = .ok phones := hgp
  obtain ⟨hplen, hpairs⟩ := collectTop_ok _ phones hct
  exact ⟨phones, hct, by simpa [predict] using hplen, hpairs, hout⟩

/-- C9 witness: the amended format theorem applied to the concrete
successful batch. -/
theorem spec_C9_witness :
    (["hús\t~ k a b ~\n"] : List String).length
      = (["hús\n"] : List String).length :=
  (spec_C9_one_line_top_ranked_format expfW trW optsW ["hús\n"]
    ["hús\t~ k a b ~\n"] g2p_file_trW).1

/-- C10: a `TranslationFailure` raised by `nBestNext` after `k ≥ 1`
hypotheses have been appended is caught by the handler that wraps the
whole retrieval loop: the word's record retains the partial hypotheses
and the exception does not propagate. -/
theorem spec_C10_midloop_failure_keeps_partial (e : ℚ → ℚ)
    (tr : Translator) (o : Options) (word : String) (nb : NBest)
    (cands : List (ℚ × List String)) (rest : List NextOutcome)
    (hinit : tr word.toList = .ok nb)
    (hstream : nb.stream
      = cands.map toNext ++ NextOutcome.translationFailure :: rest)
    (hmass : ∀ k, k ≤ cands.length →
      sumPosteriors ((cands.take k).map (toHyp e nb.logLikTotal))
        < o.variants_mass)
    (hnum : cands.length < o.variants_number)
    (hne : cands ≠ []) :
    (predictWord e tr o word).results
        = cands.map (toHyp e nb.logLikTotal)
    ∧ (predictWord e tr o word).results ≠ [] := by
  have hmain : (predictWord e tr o word).results
      = cands.map (toHyp e nb.logLikTotal) := by
    rw [predictWord_ok e tr o word nb hinit, hstream]
    show predictLoop e o nb.logLikTotal
      (cands.map toNext ++ NextOutcome.translationFailure :: rest)
      0 0 [] = _
    rw [predictLoop_run e o nb.logLikTotal cands _ 0 0 []
      (fun k hk => by simpa using hmass k hk) (by omega)]
    rw [predictLoop_fail]
    simp
  refine ⟨hmain, ?_⟩
  rw [hmain]
  simp [hne]

/-- C10 witness: one candidate is appended, then `nBestNext` raises
`TranslationFailure`; the record keeps the one partial hypothesis. -/
theorem spec_C10_witness :
    (predictWord expfW trMid optsW "hús").results
        = [((-1 : ℚ), ["a"])].map (toHyp expfW 0)
    ∧ (predictWord expfW trMid optsW "hús").results ≠ [] :=
  spec_C10_midloop_failure_keeps_partial expfW trMid optsW "hús"
    ⟨0, [.candidate (-1) ["a"], .translationFailure]⟩
    [((-1 : ℚ), ["a"])] [] rfl rfl
    (by
      intro k hk
      have hk' : k ≤ 1 := by simpa using hk
      interval_cases k <;>
        norm_num [sumPosteriors, toHyp, expfW, optsW, VARIANTS_MASS])
    (by norm_num [optsW, VARIANTS_NUMBER])
    (by simp)

end G2P
